import Mathlib

/-!
# Verification of `multiunpackrecursive.py` (NzbDownloadsMultiUnpack)

Shallow embedding of the archive-classification, removal-command and
script-rendering logic of `src/nzbdownloadsmultiunpack/multiunpackrecursive.py`
(version 1.7.0, the current implementation).

Modelling conventions:
* Filenames and paths are `String`s (lists of `Char`).  Python's
  case-insensitive regex matching (`re.IGNORECASE`) and `str.lower()` are
  modelled for the ASCII range, which covers every pattern the program uses.
* The end-anchored regexes (`\.part[0-9]+\.rar$`, `\.part0*1\.rar$`,
  `\.7z(\.0*1)?$`, `(\.part\d+)?\.rar$`, `\.7z(\.[0-9]+)?$`) are implemented
  by stripping the expected components from the reversed character list;
  because every pattern is anchored at the end of the string, the leftmost
  match of the Python regex coincides with this suffix parse.
* `pathlib.Path` values are modelled by `SPath` (an absolute directory plus a
  file name); `Path.resolve()` is the identity on this model and
  `Path.suffix` / `Path.with_suffix` follow the `pathlib` definitions.
* The filesystem (consulted by `Path.exists()` in
  `ArchiverRar.build_rm_command`) is passed explicitly as the list of
  existing absolute paths.
* A Python `assert` failure is modelled by returning `none`.
-/

/-! ## Character and list helpers -/

/-- Matches the character class `[0-9]` (Python `\d` on ASCII input). -/
def isDigitB (c : Char) : Bool := 48 ≤ c.toNat && c.toNat ≤ 57

/-- Case-insensitive match of one subject character `c` against one
pattern character `p`, where `p` is given in lowercase.  This models
`re.IGNORECASE` on the ASCII range: `c` matches `p` iff `c = p`, or `p` is a
lowercase letter and `c` is its uppercase counterpart. -/
def matchCI (p c : Char) : Bool :=
  c = p || (97 ≤ p.toNat && p.toNat ≤ 122 && c.toNat + 32 = p.toNat)

/-- Strip the pattern `pat` (given lowercase) from the front of `l`,
case-insensitively; `some` of the remainder on success. -/
def dropRunCI : List Char → List Char → Option (List Char)
  | [], l => some l
  | _ :: _, [] => none
  | p :: ps, c :: cs => if matchCI p c then dropRunCI ps cs else none

/-- `l` starts with the (lowercase) pattern `pat`, case-insensitively. -/
def hasFrontCI (pat l : List Char) : Bool := (dropRunCI pat l).isSome

/-- The reversed pattern `".rar"`. -/
def rarRev : List Char := ['r', 'a', 'r', '.']

/-- The reversed pattern `".part"`. -/
def partRev : List Char := ['t', 'r', 'a', 'p', '.']

/-- The reversed pattern `".7z"`. -/
def sevenZipRev : List Char := ['z', '7', '.']

/-- The reversed pattern `".7z."`. -/
def sevenZipDotRev : List Char := ['.', 'z', '7', '.']

/-- Numeric value of a digit string (most significant digit first). -/
def digitsToNat (ds : List Char) : Nat :=
  ds.foldl (fun n c => 10 * n + (c.toNat - 48)) 0

/-! ## Path model (`pathlib.Path`) -/

/-- A filesystem path: an absolute directory plus the final component.
`Path.resolve()` is the identity on this model. -/
structure SPath where
  dir : String
  name : String
deriving DecidableEq

/-- The full (absolute) path string, as produced by `Path.resolve()`. -/
def SPath.full (p : SPath) : String := p.dir ++ "/" ++ p.name

/-- Split a reversed name at its first `'.'`: returns the characters before
the dot (the reversed extension body) and the rest (the reversed stem).
On the un-reversed name this locates the last dot. -/
def splitFirstDotRev : List Char → Option (List Char × List Char)
  | [] => none
  | c :: cs =>
    if c = '.' then some ([], cs)
    else
      match splitFirstDotRev cs with
      | some (a, b) => some (c :: a, b)
      | none => none

/-- `PurePath.suffix`: the final extension including the dot, or `""` when
the last dot is the first or last character of the name (pathlib's
`0 < i < len(name) - 1` condition). -/
def pathSuffix (name : String) : String :=
  match splitFirstDotRev name.data.reverse with
  | some (a, b) => if a = [] ∨ b = [] then "" else ('.' :: a.reverse).asString
  | none => ""

/-- `PurePath.stem`: the name with `pathSuffix` removed. -/
def pathStem (name : String) : String :=
  match splitFirstDotRev name.data.reverse with
  | some (a, b) => if a = [] ∨ b = [] then name else b.reverse.asString
  | none => name

/-- `PurePath.with_suffix(s)` on the name component: the stem with the new
suffix appended (when the name has no suffix the new one is appended). -/
def withSuffixName (name s : String) : String := pathStem name ++ s

/-- `Path.with_suffix` lifted to `SPath`. -/
def SPath.withSuffix (p : SPath) (s : String) : SPath := ⟨p.dir, withSuffixName p.name s⟩

/-- `Path.with_name` lifted to `SPath`. -/
def SPath.withName (p : SPath) (n : String) : SPath := ⟨p.dir, n⟩

/-! ## `ArchiverRar` -/

namespace ArchiverRar

/-- `re.search(r"\.part0*1\.rar$", filename, re.IGNORECASE) is not None`:
the filename is the first part of a multi-volume RAR archive. -/
def is_volume_primer (filename : String) : Bool :=
  match dropRunCI rarRev filename.data.reverse with
  | some r1 =>
    match r1 with
    | c :: r2 => c = '1' && hasFrontCI partRev (r2.dropWhile (fun x => x = '0'))
    | [] => false
  | none => false

/-- `re.search(r"\.part[0-9]+\.rar$", filename, re.IGNORECASE) is not None`:
the filename is part of a v5 multi-volume RAR archive. -/
def is_volume_part (filename : String) : Bool :=
  match dropRunCI rarRev filename.data.reverse with
  | some r1 =>
    !(r1.takeWhile isDigitB).isEmpty && hasFrontCI partRev (r1.dropWhile isDigitB)
  | none => false

/-- `re.sub(r"(\.part\d+)?\.rar$", "", filename, count=1, flags=re.IGNORECASE)`:
the archive's basename, without multi-volume parts. -/
def get_basename (filename : String) : String :=
  match dropRunCI rarRev filename.data.reverse with
  | some r1 =>
    match (if (r1.takeWhile isDigitB).isEmpty then none
           else dropRunCI partRev (r1.dropWhile isDigitB)) with
    | some r2 => r2.reverse.asString
    | none => r1.reverse.asString
  | none => filename

/-- `filename.lower().endswith(".rar")` (ASCII model of `str.lower`). -/
def endsRarCI (filename : String) : Bool := hasFrontCI rarRev filename.data.reverse

/-- `ArchiverRar.find_archive_files`: single `.rar` files that are not
volume parts, plus the first parts of multi-volume sets.  The Python
function returns a `set`; membership in this list coincides with
membership in that set. -/
def find_archive_files (files : List String) : List String :=
  files.filter (fun f => endsRarCI f && !is_volume_part f)
    ++ files.filter is_volume_primer

/-- `ArchiverRar.build_rm_command`: the `assert filepath.suffix == ".rar"`
(case-sensitive) is modelled by `none`; `fs` is the list of existing
absolute paths (consulted for the `.r00` sibling), `rm` is `self.rm_command`. -/
def build_rm_command (fs : List String) (rm : String) (p : SPath) : Option String :=
  if pathSuffix p.name = ".rar" then
    if !is_volume_part p.name then
      if fs.contains (p.withSuffix ".r00").full then
        some (rm ++ " \"" ++ p.full ++ "\" \"" ++ (p.withSuffix "").full
          ++ "\".r* \"" ++ (p.withSuffix "").full ++ ".par2\"")
      else
        some (rm ++ " \"" ++ p.full ++ "\" \"" ++ (p.withSuffix ".par2").full ++ "\"")
    else
      some (rm ++ " \"" ++ (p.withName (get_basename p.name)).full
        ++ "\".part*.rar \"" ++ (p.withName (get_basename p.name)).full ++ ".par2\"")
  else none

end ArchiverRar

/-! ## `Archiver7z` -/

namespace Archiver7z

/-- `re.search(r"\.7z(\.0*1)?$", filename, re.IGNORECASE) is not None`:
the filename is a 7zip single archive or first multi-volume part. -/
def is_7zip (filename : String) : Bool :=
  hasFrontCI sevenZipRev filename.data.reverse
    || (match filename.data.reverse with
        | c :: r2 => c = '1' && hasFrontCI sevenZipDotRev (r2.dropWhile (fun x => x = '0'))
        | [] => false)

/-- `re.sub(r"\.7z(\.[0-9]+)?$", "", filename, count=1, flags=re.IGNORECASE)`:
the archive's basename, without multi-volume parts. -/
def get_basename (filename : String) : String :=
  let r := filename.data.reverse
  match (if (r.takeWhile isDigitB).isEmpty then none
         else dropRunCI sevenZipDotRev (r.dropWhile isDigitB)) with
  | some r2 => r2.reverse.asString
  | none =>
    match dropRunCI sevenZipRev r with
    | some r2 => r2.reverse.asString
    | none => filename

/-- `Archiver7z.find_archive_files`: every filename recognised by
`is_7zip`. -/
def find_archive_files (files : List String) : List String :=
  files.filter is_7zip

/-- `Archiver7z.build_rm_command`: the
`assert filepath.suffix in (".7z", ".001")` is modelled by `none`. -/
def build_rm_command (rm : String) (p : SPath) : Option String :=
  if pathSuffix p.name = ".7z" ∨ pathSuffix p.name = ".001" then
    some (rm ++ " \"" ++ (p.withName (get_basename p.name)).full
      ++ "\".7z* \"" ++ (p.withName (get_basename p.name)).full ++ ".par2\"")
  else none

end Archiver7z

/-! ## Claim-side observers

These definitions formalise the vocabulary the specification uses to talk
about filenames (part numbers, numeric volume suffixes); each is compared
against the source-derived definitions above in the theorems below. -/

/-- Observer: `some ds` iff the filename matches `\.part<ds>\.rar$`
case-insensitively with `ds` the (maximal, non-empty) digit run, returned in
order (most significant digit first). -/
def partDigits? (filename : String) : Option (List Char) :=
  match dropRunCI rarRev filename.data.reverse with
  | some r1 =>
    if (r1.takeWhile isDigitB).isEmpty then none
    else if hasFrontCI partRev (r1.dropWhile isDigitB) then
      some (r1.takeWhile isDigitB).reverse
    else none
  | none => none

/-- Observer: `some ds` iff the filename ends in `.7z.<ds>`
case-insensitively with `ds` the (maximal, non-empty) digit run, returned in
order (most significant digit first). -/
def sevenZDigits? (filename : String) : Option (List Char) :=
  if (filename.data.reverse.takeWhile isDigitB).isEmpty then none
  else if hasFrontCI sevenZipDotRev (filename.data.reverse.dropWhile isDigitB) then
    some (filename.data.reverse.takeWhile isDigitB).reverse
  else none

/-- Observer: the filename ends in `.7z`, case-insensitively. -/
def ends7zCI (filename : String) : Bool := hasFrontCI sevenZipRev filename.data.reverse

/-- Observer: the string is a dot followed by one or more digits (the
spec's "purely-numeric multi-volume suffix"). -/
def isNumericVolumeSuffix (s : String) : Bool :=
  match s.data with
  | '.' :: ds => !ds.isEmpty && ds.all isDigitB
  | _ => false

/-! ## Password resolution (`main`, lines 263-278)

`PASSWORD_REGEX = r"\{\{([^}]+)\}\}"`: the first substring delimited by
double curly braces, whose inner text contains no closing brace. -/

/-- The opening curly-brace character. -/
def lbrace : Char := Char.ofNat 123

/-- The closing curly-brace character. -/
def rbrace : Char := Char.ofNat 125

/-- Attempt to match `([^}]+)\}\}` at the current position (just after an
opening `{{` has been consumed): a non-empty greedy run of non-brace-close
characters followed by two closing braces. -/
def pwTake (l : List Char) : Option (List Char) :=
  let inner := l.takeWhile (fun c => c ≠ rbrace)
  let rest := l.dropWhile (fun c => c ≠ rbrace)
  if !inner.isEmpty && (match rest with
      | c1 :: c2 :: _ => c1 = rbrace && c2 = rbrace
      | _ => false) then
    some inner
  else none

/-- Leftmost match of `PASSWORD_REGEX`: scan for `{{`, try to complete the
match, otherwise resume at the next position (Python `re.search`). -/
def pwScan : List Char → Option (List Char)
  | [] => none
  | c :: cs =>
    if c = lbrace then
      match cs with
      | c2 :: cs2 =>
        if c2 = lbrace then
          match pwTake cs2 with
          | some inner => some inner
          | none => pwScan cs
        else pwScan cs
      | [] => none
    else pwScan cs

/-- `re.search(PASSWORD_REGEX, s)`, returning `match.group(1)`. -/
def findPassword (s : String) : Option String :=
  (pwScan s.data).map List.asString

/-- One directory's password loop from `main`: `pwd` starts as `None`
before the loop over the archive filenames and is only ever overwritten
when a match is found in the directory path (`root`) or in the current
filename — otherwise it keeps its value from the previous iteration.
Returns the `pwd` in force when each filename's command is built. -/
def passwordSeqAux (root : String) : Option String → List String → List (Option String)
  | _, [] => []
  | pwd, f :: fs =>
    let pwd2 := match findPassword root with
      | some p => some p
      | none =>
        match findPassword f with
        | some p => some p
        | none => pwd
    pwd2 :: passwordSeqAux root pwd2 fs

/-- The passwords attached to the commands of one directory's archives,
in iteration order (source lines 263-278 of `main`). -/
def passwordSeq (root : String) (archives : List String) : List (Option String) :=
  passwordSeqAux root none archives

/-! ## Script rendering and exit code (`main`, lines 327-358) -/

/-- `str.isascii`: every character has code point below 128. -/
def strIsAscii (s : String) : Bool := s.data.all (fun c => c.toNat ≤ 127)

/-- A run of `n` dashes. -/
def dashes (n : Nat) : String := (List.replicate n '-').asString

/-- The lines of the rendered output script: header comment, entry-count
comment, then — on MS Windows only — the codepage directive guarded by
`has_non_ascii = any([str.isascii(cmd) for cmd in commands])` (sic: the
source tests `str.isascii`, not its negation), then one numbered separator
comment and one command line per entry. -/
def scriptLines (isWindows : Bool) (headerText : String) (commands : List String) :
    List String :=
  let comment := if isWindows then "REM " else "# "
  ([comment ++ headerText, comment ++ toString commands.length ++ " entries"]
    ++ (if isWindows && commands.any strIsAscii then
          ["chcp 1252", comment ++ dashes 50]
        else [])
    ++ (commands.enum.map (fun ic =>
          [comment ++ "-- " ++ toString (ic.1 + 1) ++ ". " ++ dashes 50, ic.2])).flatten)

/-- The tail of `main`: with no commands collected, return exit code 2 and
print nothing; otherwise render the script and return 0. -/
def mainResult (isWindows : Bool) (headerText : String) (commands : List String) :
    Nat × Option (List String) :=
  if commands.isEmpty then (2, none)
  else (0, some (scriptLines isWindows headerText commands))

/-! ## General helper lemmas -/

/-- Two strings with the same character list are equal. -/
theorem strExt {a b : String} (h : a.data = b.data) : a = b := by
  cases a; cases b; exact congrArg String.mk (by simpa using h)

/-- The character list of a concatenation. -/
theorem strDataAppend (a b : String) : (a ++ b).data = a.data ++ b.data := rfl

/-- `isEmpty` is `false` exactly on non-empty lists. -/
theorem isEmptyFalseIff {α : Type} (l : List α) : l.isEmpty = false ↔ l ≠ [] := by
  cases l <;> simp

/-- Unfolding equation for `takeWhile` on a cons cell. -/
theorem takeWhileConsEq {α : Type} (p : α → Bool) (c : α) (l : List α) :
    (c :: l).takeWhile p = if p c then c :: l.takeWhile p else [] := by
  cases hc : p c <;> simp [List.takeWhile, hc]

/-- Unfolding equation for `dropWhile` on a cons cell. -/
theorem dropWhileConsEq {α : Type} (p : α → Bool) (c : α) (l : List α) :
    (c :: l).dropWhile p = if p c then l.dropWhile p else c :: l := by
  cases hc : p c <;> simp [List.dropWhile, hc]

/-- Every element of `takeWhile p l` satisfies `p`. -/
theorem takeWhilePred {α : Type} (p : α → Bool) :
    ∀ (l : List α) (x : α), x ∈ l.takeWhile p → p x = true := by
  intro l
  induction l with
  | nil => intro x hx; simp at hx
  | cons c cs ih =>
    intro x hx
    rw [takeWhileConsEq] at hx
    cases hc : p c with
    | false => simp [hc] at hx
    | true =>
      simp only [hc, if_true] at hx
      rcases List.mem_cons.mp hx with rfl | hx'
      · exact hc
      · exact ih x hx'

/-- `takeWhile` passes over a block whose elements all satisfy `p`. -/
theorem takeWhileAppendAll {α : Type} (p : α → Bool) :
    ∀ (a b : List α), (∀ x ∈ a, p x = true) → (a ++ b).takeWhile p = a ++ b.takeWhile p := by
  intro a
  induction a with
  | nil => intro b _; simp
  | cons c cs ih =>
    intro b ha
    have hc : p c = true := ha c (List.mem_cons_self c cs)
    simp only [List.cons_append, takeWhileConsEq, hc, if_true]
    rw [ih b (fun x hx => ha x (List.mem_cons_of_mem c hx))]

/-- `dropWhile` passes over a block whose elements all satisfy `p`. -/
theorem dropWhileAppendAll {α : Type} (p : α → Bool) :
    ∀ (a b : List α), (∀ x ∈ a, p x = true) → (a ++ b).dropWhile p = b.dropWhile p := by
  intro a
  induction a with
  | nil => intro b _; simp
  | cons c cs ih =>
    intro b ha
    have hc : p c = true := ha c (List.mem_cons_self c cs)
    simp only [List.cons_append, dropWhileConsEq, hc, if_true]
    exact ih b (fun x hx => ha x (List.mem_cons_of_mem c hx))

/-- The head of a non-empty `dropWhile` result falsifies `p`. -/
theorem dropWhileHeadFalse {α : Type} (p : α → Bool) :
    ∀ (l : List α) c m, l.dropWhile p = c :: m → p c = false := by
  intro l
  induction l with
  | nil => intro c m h; simp at h
  | cons x xs ih =>
    intro c m h
    rw [dropWhileConsEq] at h
    cases hx : p x with
    | true => simp only [hx, if_true] at h; exact ih c m h
    | false => simp only [hx, if_false] at h; cases h; exact hx

/-- `dropWhile` is the identity on a list whose head falsifies `p`. -/
theorem dropWhileHeadId {α : Type} (p : α → Bool) (c : α) (l : List α)
    (h : p c = false) : (c :: l).dropWhile p = c :: l := by
  rw [dropWhileConsEq, h]; simp

/-- Characterisation of a successful case-insensitive strip on a cons
pattern: the subject starts with a character matching the pattern head. -/
theorem hasFrontCIConsElim (q : Char) (qs l : List Char)
    (h : hasFrontCI (q :: qs) l = true) :
    ∃ c cs, l = c :: cs ∧ matchCI q c = true := by
  cases l with
  | nil => simp [hasFrontCI, dropRunCI] at h
  | cons c cs =>
    refine ⟨c, cs, rfl, ?_⟩
    by_contra hm
    have hm' : matchCI q c = false := by
      cases hmc : matchCI q c
      · rfl
      · exact absurd hmc hm
    simp [hasFrontCI, dropRunCI, hm'] at h

/-- `matchCI` elimination: the subject is the pattern character or its
uppercase counterpart. -/
theorem matchCIElim (p c : Char) (h : matchCI p c = true) :
    c = p ∨ (97 ≤ p.toNat ∧ c.toNat + 32 = p.toNat) := by
  have h' := h
  unfold matchCI at h'
  rcases Bool.or_eq_true_iff.mp h' with h1 | h2
  · exact Or.inl (by simpa using h1)
  · right
    rcases Bool.and_eq_true_iff.mp h2 with ⟨h3, h4⟩
    rcases Bool.and_eq_true_iff.mp h3 with ⟨h5, _⟩
    exact ⟨by simpa using h5, by simpa using h4⟩

/-- A character matching `'t'` case-insensitively is not a digit and not `'0'`. -/
theorem matchCIt (c : Char) (h : matchCI 't' c = true) :
    isDigitB c = false ∧ ¬(c = '0') := by
  rcases matchCIElim 't' c h with rfl | ⟨_, hn⟩
  · exact ⟨by decide, by decide⟩
  · have hc : c.toNat = 84 := by
      have : ('t' : Char).toNat = 116 := by decide
      omega
    constructor
    · simp [isDigitB, hc]
    · intro he; subst he; simp at hc

/-- A character matching `'.'` case-insensitively is not a digit and not `'0'`. -/
theorem matchCIdot (c : Char) (h : matchCI '.' c = true) :
    isDigitB c = false ∧ ¬(c = '0') := by
  rcases matchCIElim '.' c h with rfl | ⟨h97, _⟩
  · exact ⟨by decide, by decide⟩
  · have : ('.' : Char).toNat = 46 := by decide
    omega

/-- A character matching `'z'` case-insensitively is not a digit. -/
theorem matchCIz (c : Char) (h : matchCI 'z' c = true) : isDigitB c = false := by
  rcases matchCIElim 'z' c h with rfl | ⟨_, hn⟩
  · decide
  · have hc : c.toNat = 90 := by
      have : ('z' : Char).toNat = 122 := by decide
      omega
    simp [isDigitB, hc]

/-- Characters are determined by their code points. -/
theorem charToNatInj (a b : Char) (h : a.toNat = b.toNat) : a = b := by
  apply Char.eq_of_val_eq
  apply UInt32.eq_of_toBitVec_eq
  apply BitVec.eq_of_toNat_eq
  exact h

/-- A digit run reduces to `['1']` under zero-stripping exactly when it is a
block of zeros followed by a final `'1'`. -/
theorem dropWhileZerosEqOne :
    ∀ N : List Char,
      N.dropWhile (fun x => x = '0') = ['1'] ↔
        ∃ zs, (∀ c ∈ zs, c = '0') ∧ N = zs ++ ['1'] := by
  intro N
  induction N with
  | nil =>
    constructor
    · intro h; simp [List.dropWhile] at h
    · rintro ⟨zs, -, h⟩; exact absurd h (by simp)
  | cons c M ih =>
    by_cases hc : c = '0'
    · subst hc
      rw [dropWhileConsEq, if_pos (by decide)]
      constructor
      · intro h
        obtain ⟨zs, hall, hM⟩ := ih.mp h
        refine ⟨'0' :: zs, ?_, by rw [hM]; rfl⟩
        intro y hy
        rcases List.mem_cons.mp hy with rfl | hy'
        · rfl
        · exact hall y hy'
      · rintro ⟨zs, hall, hM⟩
        cases zs with
        | nil => simp at hM
        | cons z zs' =>
          rw [List.cons_append] at hM
          injection hM with _ h2
          exact ih.mpr ⟨zs', fun y hy => hall y (List.mem_cons_of_mem z hy), h2⟩
    · rw [dropWhileConsEq, if_neg (by simpa using hc)]
      constructor
      · intro h
        injection h with h1 h2
        exact ⟨[], by simp, by rw [h1, h2]; rfl⟩
      · rintro ⟨zs, hall, hM⟩
        cases zs with
        | nil => simpa using hM
        | cons z zs' =>
          have hz : z = '0' := hall z (List.mem_cons_self z zs')
          rw [List.cons_append] at hM
          injection hM with h1 _
          rw [hz] at h1
          exact absurd h1 hc

/-- The digit-fold never decreases below its initial accumulator. -/
theorem digitsFoldLe :
    ∀ (M : List Char) (n : Nat),
      n ≤ M.foldl (fun n c => 10 * n + (c.toNat - 48)) n := by
  intro M
  induction M with
  | nil => intro n; simp
  | cons x xs ih =>
    intro n
    rw [List.foldl_cons]
    exact le_trans (by omega) (ih (10 * n + (x.toNat - 48)))

/-- Leading zeros do not change a digit string's value. -/
theorem digitsToNatZeros (zs N : List Char) (h : ∀ c ∈ zs, c = '0') :
    digitsToNat (zs ++ N) = digitsToNat N := by
  induction zs with
  | nil => rfl
  | cons z zs' ih =>
    have hz : z = '0' := h z (List.mem_cons_self z zs')
    subst hz
    show List.foldl _ _ (('0' :: zs') ++ N) = _
    rw [List.cons_append, List.foldl_cons]
    exact ih (fun c hc => h c (List.mem_cons_of_mem _ hc))

/-- A non-empty digit string has value 1 exactly when stripping its leading
zeros leaves the single digit `'1'`. -/
theorem digitsToNatEqOneIff (ds : List Char)
    (hd : ∀ c ∈ ds, isDigitB c = true) :
    digitsToNat ds = 1 ↔ ds.dropWhile (fun x => x = '0') = ['1'] := by
  have hsplit : ds.takeWhile (fun x => x = '0') ++ ds.dropWhile (fun x => x = '0') = ds :=
    List.takeWhile_append_dropWhile _ _
  have hzs : ∀ c ∈ ds.takeWhile (fun x => x = '0'), c = '0' :=
    fun c hc => of_decide_eq_true (takeWhilePred _ ds c hc)
  have hval : digitsToNat ds = digitsToNat (ds.dropWhile (fun x => x = '0')) := by
    conv_lhs => rw [← hsplit]
    exact digitsToNatZeros _ _ hzs
  rw [hval]
  cases hN : ds.dropWhile (fun x => x = '0') with
  | nil =>
    constructor
    · intro h; exact absurd h (by decide)
    · intro h; exact absurd h (by simp)
  | cons c M =>
    have hc0 : ¬(c = '0') := by
      have := dropWhileHeadFalse (fun x => x = '0') ds c M hN
      exact of_decide_eq_false this
    have hcds : c ∈ ds := by
      rw [← hsplit, hN]
      exact List.mem_append_right _ (List.mem_cons_self c M)
    have hcd : isDigitB c = true := hd c hcds
    have hc48 : 48 ≤ c.toNat ∧ c.toNat ≤ 57 := by
      have h' := hcd
      unfold isDigitB at h'
      rcases Bool.and_eq_true_iff.mp h' with ⟨h1, h2⟩
      exact ⟨by simpa using h1, by simpa using h2⟩
    have hcne48 : c.toNat ≠ 48 := by
      intro he
      exact hc0 (charToNatInj c '0' (by rw [he]; rfl))
    constructor
    · intro h1
      cases M with
      | nil =>
        have hv : digitsToNat [c] = c.toNat - 48 := by
          show 10 * 0 + (c.toNat - 48) = c.toNat - 48
          omega
        rw [hv] at h1
        have : c.toNat = 49 := by omega
        rw [charToNatInj c '1' (by rw [this]; rfl)]
      | cons x xs =>
        exfalso
        have hv : digitsToNat (c :: x :: xs) =
            List.foldl (fun n c => 10 * n + (c.toNat - 48))
              (10 * (10 * 0 + (c.toNat - 48)) + (x.toNat - 48)) xs := by
          show List.foldl _ 0 (c :: x :: xs) = _
          rw [List.foldl_cons, List.foldl_cons]
        have hge := digitsFoldLe xs (10 * (10 * 0 + (c.toNat - 48)) + (x.toNat - 48))
        rw [hv] at h1
        omega
    · intro h1
      injection h1 with h2 h3
      rw [h2, h3]
      decide

/-- Given that the tail after the zero-run case-insensitively starts with a
pattern whose head is neither a digit nor `'0'`, the digit-run and zero-run
parses of `r2` coincide: the digit run is exactly the zero run, and the
remainder after the digit run still starts with the pattern. -/
theorem zeroRunToDigitRun (q : Char) (qs : List Char)
    (hqd : ∀ c, matchCI q c = true → isDigitB c = false ∧ ¬(c = '0'))
    (r2 : List Char)
    (h3 : hasFrontCI (q :: qs) (r2.dropWhile (fun x => x = '0')) = true) :
    r2.takeWhile isDigitB = r2.takeWhile (fun x => x = '0') ∧
      hasFrontCI (q :: qs) (r2.dropWhile isDigitB) = true := by
  obtain ⟨x, xs, hx, hm⟩ := hasFrontCIConsElim q qs _ h3
  have hxd := hqd x hm
  have hsplit : r2.takeWhile (fun x => x = '0') ++ r2.dropWhile (fun x => x = '0') = r2 :=
    List.takeWhile_append_dropWhile _ _
  have hzall : ∀ y ∈ r2.takeWhile (fun x => x = '0'), y = '0' :=
    fun y hy => of_decide_eq_true (takeWhilePred _ r2 y hy)
  have hdig : ∀ y ∈ r2.takeWhile (fun x => x = '0'), isDigitB y = true := by
    intro y hy
    have h := hzall y hy; subst h; decide
  have hdrop : r2.dropWhile isDigitB = x :: xs := by
    conv_lhs => rw [← hsplit]
    rw [dropWhileAppendAll isDigitB _ _ hdig, hx, dropWhileConsEq, hxd.1]
    simp
  constructor
  · conv_lhs => rw [← hsplit]
    rw [takeWhileAppendAll isDigitB _ _ hdig, hx, takeWhileConsEq, hxd.1]
    simp
  · rw [hdrop, ← hx]
    exact h3

/-- Conversely, when the digit run of `r2` consists of zeros only and the
remainder starts with such a pattern, the zero-run parse reaches the same
remainder. -/
theorem digitRunToZeroRun (q : Char) (qs : List Char)
    (hqd : ∀ c, matchCI q c = true → isDigitB c = false ∧ ¬(c = '0'))
    (r2 : List Char)
    (hall : ∀ y ∈ r2.takeWhile isDigitB, y = '0')
    (h2 : hasFrontCI (q :: qs) (r2.dropWhile isDigitB) = true) :
    r2.dropWhile (fun x => x = '0') = r2.dropWhile isDigitB := by
  obtain ⟨x, xs, hx, hm⟩ := hasFrontCIConsElim q qs _ h2
  have hxd := hqd x hm
  have hsplit : r2.takeWhile isDigitB ++ r2.dropWhile isDigitB = r2 :=
    List.takeWhile_append_dropWhile _ _
  conv_lhs => rw [← hsplit]
  rw [dropWhileAppendAll (fun x => x = '0') _ _ (fun y hy => by
    have h := hall y hy; subst h; decide)]
  rw [hx]
  exact dropWhileHeadId _ x xs (decide_eq_false hxd.2)

/-- Core equivalence shared by the `\.part0*1\.rar$` and `\.7z\.0*1$`
matchers: on a reversed subject `c :: r2` whose front is a non-empty digit
run followed case-insensitively by `pat = q :: qs`, the `1`-then-zeros check
succeeds exactly when the digit run (read forwards) strips to `"1"`. -/
theorem primerCore (q : Char) (qs : List Char)
    (hqd : ∀ c, matchCI q c = true → isDigitB c = false ∧ ¬(c = '0'))
    (c : Char) (r2 : List Char) (hc : isDigitB c = true)
    (h2 : hasFrontCI (q :: qs) (r2.dropWhile isDigitB) = true) :
    (decide (c = '1') && hasFrontCI (q :: qs) (r2.dropWhile (fun x => x = '0'))) = true ↔
      (((c :: r2).takeWhile isDigitB).reverse).dropWhile (fun x => x = '0') = ['1'] := by
  rw [takeWhileConsEq, if_pos hc, List.reverse_cons]
  constructor
  · intro hlhs
    obtain ⟨hc1b, h3⟩ := Bool.and_eq_true_iff.mp hlhs
    have hc1 : c = '1' := of_decide_eq_true hc1b
    obtain ⟨hteq, -⟩ := zeroRunToDigitRun q qs hqd r2 h3
    rw [hteq]
    rw [dropWhileAppendAll (fun x => x = '0') _ _ (fun y hy => by
      have h := of_decide_eq_true (takeWhilePred _ r2 y (List.mem_reverse.mp hy))
      subst h; decide)]
    subst hc1; decide
  · intro hrhs
    obtain ⟨zs0, hall0, heq⟩ := (dropWhileZerosEqOne _).mp hrhs
    have heq' : c :: r2.takeWhile isDigitB = '1' :: zs0.reverse := by
      have h'' := congrArg List.reverse heq
      simpa [List.reverse_append] using h''
    injection heq' with hc1 ht
    have hall : ∀ y ∈ r2.takeWhile isDigitB, y = '0' := by
      intro y hy
      rw [ht] at hy
      exact hall0 y (List.mem_reverse.mp hy)
    rw [Bool.and_eq_true_iff]
    refine ⟨decide_eq_true hc1, ?_⟩
    rw [digitRunToZeroRun q qs hqd r2 hall h2]
    exact h2

/-! ## Elimination lemmas for the observers -/

/-- String append with the empty string. -/
theorem strAppendEmpty (s : String) : s ++ "" = s := by
  apply strExt
  show (s ++ "").data = s.data
  rw [strDataAppend]
  have h : ("" : String).data = [] := rfl
  rw [h, List.append_nil]

/-- A pattern matches itself. -/
theorem matchCISelf (p : Char) : matchCI p p = true := by simp [matchCI]

/-- Stripping a pattern from itself plus a remainder yields the remainder. -/
theorem dropRunCISelf (pat : List Char) : ∀ l, dropRunCI pat (pat ++ l) = some l := by
  induction pat with
  | nil => intro l; rfl
  | cons p ps ih =>
    intro l
    show (if matchCI p p then dropRunCI ps (ps ++ l) else none) = some l
    rw [if_pos (matchCISelf p)]
    exact ih l

/-- Unpack a successful `partDigits?` parse. -/
theorem partDigitsElim (f : String) (ds : List Char) (h : partDigits? f = some ds) :
    ∃ r1, dropRunCI rarRev f.data.reverse = some r1 ∧
      (r1.takeWhile isDigitB).isEmpty = false ∧
      hasFrontCI partRev (r1.dropWhile isDigitB) = true ∧
      ds = (r1.takeWhile isDigitB).reverse := by
  unfold partDigits? at h
  cases e : dropRunCI rarRev f.data.reverse with
  | none =>
    rw [e] at h
    exact absurd h (by simp)
  | some r1 =>
    rw [e] at h
    replace h : (if (r1.takeWhile isDigitB).isEmpty then none
        else if hasFrontCI partRev (r1.dropWhile isDigitB) then
          some (r1.takeWhile isDigitB).reverse
        else none) = some ds := h
    by_cases hemp : (r1.takeWhile isDigitB).isEmpty = true
    · rw [if_pos hemp] at h
      exact absurd h (by simp)
    · rw [if_neg hemp] at h
      by_cases hfr : hasFrontCI partRev (r1.dropWhile isDigitB) = true
      · rw [if_pos hfr] at h
        injection h with h'
        refine ⟨r1, rfl, ?_, hfr, h'.symm⟩
        cases hb : (r1.takeWhile isDigitB).isEmpty with
        | true => exact absurd hb hemp
        | false => rfl
      · rw [if_neg hfr] at h
        exact absurd h (by simp)

/-- Unpack a successful `sevenZDigits?` parse. -/
theorem sevenZElim (f : String) (ds : List Char) (h : sevenZDigits? f = some ds) :
    (f.data.reverse.takeWhile isDigitB).isEmpty = false ∧
      hasFrontCI sevenZipDotRev (f.data.reverse.dropWhile isDigitB) = true ∧
      ds = (f.data.reverse.takeWhile isDigitB).reverse := by
  unfold sevenZDigits? at h
  by_cases hemp : (f.data.reverse.takeWhile isDigitB).isEmpty = true
  · rw [if_pos hemp] at h
    exact absurd h (by simp)
  · rw [if_neg hemp] at h
    by_cases hfr : hasFrontCI sevenZipDotRev (f.data.reverse.dropWhile isDigitB) = true
    · rw [if_pos hfr] at h
      injection h with h'
      refine ⟨?_, hfr, h'.symm⟩
      cases hb : (f.data.reverse.takeWhile isDigitB).isEmpty with
      | true => exact absurd hb hemp
      | false => rfl
    · rw [if_neg hfr] at h
      exact absurd h (by simp)

/-- A filename with a part-digit parse is a volume part. -/
theorem isVolumePartOfPartDigits (f : String) (ds : List Char)
    (h : partDigits? f = some ds) : ArchiverRar.is_volume_part f = true := by
  obtain ⟨r1, heq, hemp, hfr, -⟩ := partDigitsElim f ds h
  unfold ArchiverRar.is_volume_part
  rw [heq]
  show (!(r1.takeWhile isDigitB).isEmpty && hasFrontCI partRev (r1.dropWhile isDigitB)) = true
  rw [hemp, hfr]
  rfl

/-- The digits of a part-digit parse are digits, and there is at least one. -/
theorem partDigitsDigits (f : String) (ds : List Char) (h : partDigits? f = some ds) :
    (∀ c ∈ ds, isDigitB c = true) ∧ ds ≠ [] := by
  obtain ⟨r1, -, hemp, -, hds⟩ := partDigitsElim f ds h
  subst hds
  constructor
  · intro c hc
    exact takeWhilePred _ r1 c (List.mem_reverse.mp hc)
  · intro hnil
    rw [List.reverse_eq_nil_iff] at hnil
    rw [hnil] at hemp
    simp at hemp

/-- The digits of a 7z-digit parse are digits, and there is at least one. -/
theorem sevenZDigitsDigits (f : String) (ds : List Char) (h : sevenZDigits? f = some ds) :
    (∀ c ∈ ds, isDigitB c = true) ∧ ds ≠ [] := by
  obtain ⟨hemp, -, hds⟩ := sevenZElim f ds h
  subst hds
  constructor
  · intro c hc
    exact takeWhilePred _ _ c (List.mem_reverse.mp hc)
  · intro hnil
    rw [List.reverse_eq_nil_iff] at hnil
    rw [hnil] at hemp
    simp at hemp

/-- The primer test succeeds exactly when the parsed part number strips to
`"1"`. -/
theorem primerIffDigits (f : String) (ds : List Char) (h : partDigits? f = some ds) :
    (ArchiverRar.is_volume_primer f = true ↔
      ds.dropWhile (fun x => x = '0') = ['1']) := by
  obtain ⟨r1, heq, hemp, hfr, hds⟩ := partDigitsElim f ds h
  unfold ArchiverRar.is_volume_primer
  rw [heq]
  cases r1 with
  | nil => simp at hemp
  | cons c r2 =>
    by_cases hc : isDigitB c = true
    · have hdrop : (c :: r2).dropWhile isDigitB = r2.dropWhile isDigitB := by
        rw [dropWhileConsEq, if_pos hc]
      rw [hdrop] at hfr
      subst hds
      show (decide (c = '1') && hasFrontCI partRev (r2.dropWhile (fun x => x = '0'))) = true ↔ _
      exact primerCore 't' ['r', 'a', 'p', '.'] matchCIt c r2 hc
        (by simpa [partRev] using hfr)
    · exfalso
      have ht : (c :: r2).takeWhile isDigitB = [] := by
        rw [takeWhileConsEq, if_neg hc]
      rw [ht] at hemp
      simp at hemp

/-- Membership in the RAR classifier's result. -/
theorem memFindRarIff (files : List String) (f : String) :
    f ∈ ArchiverRar.find_archive_files files ↔
      (f ∈ files ∧ ((ArchiverRar.endsRarCI f = true ∧ ArchiverRar.is_volume_part f = false)
        ∨ ArchiverRar.is_volume_primer f = true)) := by
  unfold ArchiverRar.find_archive_files
  rw [List.mem_append, List.mem_filter, List.mem_filter]
  constructor
  · rintro (⟨hf, hp⟩ | ⟨hf, hp⟩)
    · obtain ⟨h1, h2⟩ := Bool.and_eq_true_iff.mp hp
      refine ⟨hf, Or.inl ⟨h1, ?_⟩⟩
      cases hvp : ArchiverRar.is_volume_part f with
      | false => rfl
      | true => rw [hvp] at h2; exact absurd h2 (by simp)
    · exact ⟨hf, Or.inr hp⟩
  · rintro ⟨hf, (⟨h1, h2⟩ | hp)⟩
    · refine Or.inl ⟨hf, ?_⟩
      rw [Bool.and_eq_true_iff]
      exact ⟨h1, by rw [h2]; rfl⟩
    · exact Or.inr ⟨hf, hp⟩

/-- Every RAR representative comes from the input list and ends in `.rar`
case-insensitively. -/
theorem memFindRarEndsRar (files : List String) (f : String)
    (h : f ∈ ArchiverRar.find_archive_files files) :
    f ∈ files ∧ ArchiverRar.endsRarCI f = true := by
  rcases (memFindRarIff files f).mp h with ⟨hf, hcase⟩
  refine ⟨hf, ?_⟩
  rcases hcase with ⟨h1, -⟩ | hp
  · exact h1
  · unfold ArchiverRar.is_volume_primer at hp
    unfold ArchiverRar.endsRarCI hasFrontCI
    cases e : dropRunCI rarRev f.data.reverse with
    | none => rw [e] at hp; exact absurd hp (by decide)
    | some r1 => rfl

/-- Membership in the 7-Zip classifier's result. -/
theorem memFind7zIff (files : List String) (f : String) :
    f ∈ Archiver7z.find_archive_files files ↔
      f ∈ files ∧ Archiver7z.is_7zip f = true := by
  unfold Archiver7z.find_archive_files
  exact List.mem_filter

/-- The 7-Zip test on a filename with a numeric `.7z.N` tail succeeds exactly
when the tail strips to `"1"`. -/
theorem sevenZIffDigits (f : String) (ds : List Char) (h : sevenZDigits? f = some ds) :
    (Archiver7z.is_7zip f = true ↔ ds.dropWhile (fun x => x = '0') = ['1']) := by
  obtain ⟨hemp, hfr, hds⟩ := sevenZElim f ds h
  unfold Archiver7z.is_7zip
  cases hr : f.data.reverse with
  | nil => rw [hr] at hemp; simp at hemp
  | cons c r2 =>
    rw [hr] at hemp hfr hds
    by_cases hc : isDigitB c = true
    · have hdrop : (c :: r2).dropWhile isDigitB = r2.dropWhile isDigitB := by
        rw [dropWhileConsEq, if_pos hc]
      rw [hdrop] at hfr
      subst hds
      have hfirst : hasFrontCI sevenZipRev (c :: r2) = false := by
        cases hzf : hasFrontCI sevenZipRev (c :: r2) with
        | false => rfl
        | true =>
          exfalso
          obtain ⟨c', cs', hcc, hm⟩ :=
            hasFrontCIConsElim 'z' ['7', '.'] (c :: r2) (by simpa [sevenZipRev] using hzf)
          injection hcc with h1 h2
          rw [← h1] at hm
          have hnd := matchCIz c hm
          rw [hnd] at hc
          exact absurd hc (by simp)
      rw [hfirst, Bool.false_or]
      show (decide (c = '1') && hasFrontCI sevenZipDotRev (r2.dropWhile (fun x => x = '0'))) = true ↔ _
      exact primerCore '.' ['z', '7', '.'] matchCIdot c r2 hc
        (by simpa [sevenZipDotRev] using hfr)
    · exfalso
      have ht : (c :: r2).takeWhile isDigitB = [] := by
        rw [takeWhileConsEq, if_neg hc]
      rw [ht] at hemp
      simp at hemp

/-- With no numeric `.7z.N` tail, the 7-Zip test reduces to the plain
`.7z`-ending test. -/
theorem sevenZNoneEnds (f : String) (h : sevenZDigits? f = none) :
    Archiver7z.is_7zip f = ends7zCI f := by
  unfold Archiver7z.is_7zip ends7zCI
  cases hr : f.data.reverse with
  | nil => simp
  | cons c r2 =>
    have hsecond :
        (decide (c = '1') && hasFrontCI sevenZipDotRev (r2.dropWhile (fun x => x = '0'))) = false := by
      cases hb : (decide (c = '1') && hasFrontCI sevenZipDotRev (r2.dropWhile (fun x => x = '0'))) with
      | false => rfl
      | true =>
        exfalso
        obtain ⟨hc1b, h3⟩ := Bool.and_eq_true_iff.mp hb
        have hc1 : c = '1' := of_decide_eq_true hc1b
        obtain ⟨hteq, hfr2⟩ := zeroRunToDigitRun '.' ['z', '7', '.'] matchCIdot r2
          (by simpa [sevenZipDotRev] using h3)
        have hc : isDigitB c = true := by subst hc1; decide
        have htake : (c :: r2).takeWhile isDigitB = c :: r2.takeWhile isDigitB := by
          rw [takeWhileConsEq, if_pos hc]
        have hdrop : (c :: r2).dropWhile isDigitB = r2.dropWhile isDigitB := by
          rw [dropWhileConsEq, if_pos hc]
        unfold sevenZDigits? at h
        rw [hr, htake, hdrop] at h
        rw [if_neg (by simp)] at h
        rw [if_pos (by simpa [sevenZipDotRev] using hfr2)] at h
        exact absurd h (by simp)
    show (hasFrontCI sevenZipRev (c :: r2) ||
        (decide (c = '1') && hasFrontCI sevenZipDotRev (r2.dropWhile (fun x => x = '0')))) =
      hasFrontCI sevenZipRev (c :: r2)
    rw [hsecond, Bool.or_false]

/-! ## Path-structure lemmas -/

/-- A successful split reconstructs the list. -/
theorem splitFirstDotRevEq :
    ∀ (l a b : List Char), splitFirstDotRev l = some (a, b) → l = a ++ '.' :: b := by
  intro l
  induction l with
  | nil => intro a b h; simp [splitFirstDotRev] at h
  | cons c cs ih =>
    intro a b h
    unfold splitFirstDotRev at h
    by_cases hc : c = '.'
    · rw [if_pos hc] at h
      injection h with h'
      injection h' with h1 h2
      rw [← h1, ← h2, hc]
      rfl
    · rw [if_neg hc] at h
      cases e : splitFirstDotRev cs with
      | none => rw [e] at h; exact absurd h (by simp)
      | some ab =>
        obtain ⟨a', b'⟩ := ab
        rw [e] at h
        replace h : some (c :: a', b') = some (a, b) := h
        injection h with h'
        injection h' with h1 h2
        rw [← h1, ← h2, List.cons_append]
        exact congrArg (List.cons c) (ih a' b' e)

/-- A name whose pathlib suffix is exactly `".rar"` reverses to
`'r' :: 'a' :: 'r' :: '.' ::` (reversed stem). -/
theorem pathSuffixRarStruct (name : String) (h : pathSuffix name = ".rar") :
    ∃ b, name.data.reverse = 'r' :: 'a' :: 'r' :: '.' :: b ∧
      pathStem name = b.reverse.asString := by
  unfold pathSuffix at h
  cases e : splitFirstDotRev name.data.reverse with
  | none => rw [e] at h; exact absurd h (by decide)
  | some ab =>
    obtain ⟨a, b⟩ := ab
    rw [e] at h
    replace h : (if a = [] ∨ b = [] then "" else ('.' :: a.reverse).asString) = ".rar" := h
    by_cases hab : a = [] ∨ b = []
    · rw [if_pos hab] at h
      exact absurd h (by decide)
    · rw [if_neg hab] at h
      have hdata : '.' :: a.reverse = ['.', 'r', 'a', 'r'] := by
        have h' := congrArg String.data h
        exact h'
      injection hdata with h1 h2
      have ha : a = ['r', 'a', 'r'] := by
        have h3 := congrArg List.reverse h2
        simpa using h3
      refine ⟨b, ?_, ?_⟩
      · rw [splitFirstDotRevEq _ a b e, ha]
        rfl
      · unfold pathStem
        rw [e]
        replace hab := hab
        show (if a = [] ∨ b = [] then name else b.reverse.asString) = b.reverse.asString
        rw [if_neg hab]

/-- Under the branch conditions of `build_rm_command` (exact suffix `.rar`,
not a volume part) the source's basename derivation agrees with the pathlib
stem used by `with_suffix`. -/
theorem getBasenameEqStem (name : String) (hs : pathSuffix name = ".rar")
    (hp : ArchiverRar.is_volume_part name = false) :
    ArchiverRar.get_basename name = pathStem name := by
  obtain ⟨b, hrev, hstem⟩ := pathSuffixRarStruct name hs
  have hdrop : dropRunCI rarRev name.data.reverse = some b := by
    rw [hrev]
    show dropRunCI rarRev (rarRev ++ b) = some b
    exact dropRunCISelf rarRev b
  unfold ArchiverRar.get_basename
  rw [hdrop]
  unfold ArchiverRar.is_volume_part at hp
  rw [hdrop] at hp
  replace hp : (!(b.takeWhile isDigitB).isEmpty && hasFrontCI partRev (b.dropWhile isDigitB)) = false := hp
  rw [hstem]
  by_cases hemp : (b.takeWhile isDigitB).isEmpty = true
  · show (match (if (b.takeWhile isDigitB).isEmpty then none
        else dropRunCI partRev (b.dropWhile isDigitB)) with
      | some r2 => r2.reverse.asString
      | none => b.reverse.asString) = b.reverse.asString
    rw [if_pos hemp]
  · have hemp' : (b.takeWhile isDigitB).isEmpty = false := by
      cases hb : (b.takeWhile isDigitB).isEmpty with
      | true => exact absurd hb hemp
      | false => rfl
    have hfr : hasFrontCI partRev (b.dropWhile isDigitB) = false := by
      cases hf : hasFrontCI partRev (b.dropWhile isDigitB) with
      | false => rfl
      | true => rw [hemp', hf] at hp; exact absurd hp (by decide)
    have hnone : dropRunCI partRev (b.dropWhile isDigitB) = none := by
      cases hd : dropRunCI partRev (b.dropWhile isDigitB) with
      | none => rfl
      | some r2 =>
        exfalso
        unfold hasFrontCI at hfr
        rw [hd] at hfr
        simp at hfr
    show (match (if (b.takeWhile isDigitB).isEmpty then none
        else dropRunCI partRev (b.dropWhile isDigitB)) with
      | some r2 => r2.reverse.asString
      | none => b.reverse.asString) = b.reverse.asString
    rw [if_neg hemp, hnone]

/-! ## Claim theorems -/

/-- C1 (counterexample): a list containing only the legacy volume file
`x.r00` yields an empty representative set; in particular the sibling
`x.rar`, absent from the input, is not added by the classifier. -/
theorem C1_counterexample :
    ArchiverRar.find_archive_files ["x.r00"] = [] ∧
      (ArchiverRar.find_archive_files ["x.r00"]).contains "x.rar" = false := by
  decide

/-- C1 (amended): every representative returned by the RAR classifier is one
of the input filenames and ends in `.rar` case-insensitively; a legacy
`.rNN` filename therefore contributes nothing, and no absent sibling `.rar`
name is ever added. -/
theorem C1_representatives_from_input (files : List String) (f : String)
    (h : f ∈ ArchiverRar.find_archive_files files) :
    f ∈ files ∧ ArchiverRar.endsRarCI f = true :=
  memFindRarEndsRar files f h

/-- Witness for C1's amended theorem at a concrete input. -/
theorem C1_representatives_from_input_witness :
    "a.rar" ∈ ["a.rar"] ∧ ArchiverRar.endsRarCI "a.rar" = true :=
  C1_representatives_from_input ["a.rar"] "a.rar" (by decide)

/-- C2: a filename of the modern form `<stem>.partN.rar` (case-insensitive)
occurring in the input list belongs to the RAR representative set if and
only if the numeric value of `N` equals 1. -/
theorem C2_part_representative_iff_value_one (files : List String) (f : String)
    (ds : List Char) (hmem : f ∈ files) (h : partDigits? f = some ds) :
    (f ∈ ArchiverRar.find_archive_files files ↔ digitsToNat ds = 1) := by
  have hpart := isVolumePartOfPartDigits f ds h
  have hdig := partDigitsDigits f ds h
  rw [memFindRarIff]
  rw [digitsToNatEqOneIff ds hdig.1]
  rw [← primerIffDigits f ds h]
  constructor
  · rintro ⟨-, h'⟩
    rcases h' with ⟨-, h2⟩ | hp
    · rw [hpart] at h2
      exact absurd h2 (by simp)
    · exact hp
  · intro hp
    exact ⟨hmem, Or.inr hp⟩

/-- Witness for C2 at `x.part01.rar` (zero-padded part number 1). -/
theorem C2_part_representative_iff_value_one_witness :
    "x.part01.rar" ∈ ArchiverRar.find_archive_files ["x.part01.rar"] :=
  (C2_part_representative_iff_value_one ["x.part01.rar"] "x.part01.rar" ['0', '1']
    (by decide) (by decide)).mpr (by decide)

/-- C3: a filename in the input belongs to the 7-Zip representative set if
and only if it either ends in `.7z` (case-insensitively, no numeric tail)
or ends in `.7z.<digits>` with the numeric tail's value equal to 1. -/
theorem C3_sevenzip_representatives (files : List String) (f : String)
    (hmem : f ∈ files) :
    (sevenZDigits? f = none →
      (f ∈ Archiver7z.find_archive_files files ↔ ends7zCI f = true)) ∧
    (∀ ds, sevenZDigits? f = some ds →
      (f ∈ Archiver7z.find_archive_files files ↔ digitsToNat ds = 1)) := by
  constructor
  · intro hn
    rw [memFind7zIff, sevenZNoneEnds f hn]
    constructor
    · rintro ⟨-, h⟩; exact h
    · intro h; exact ⟨hmem, h⟩
  · intro ds hs
    rw [memFind7zIff]
    have hdig := sevenZDigitsDigits f ds hs
    rw [digitsToNatEqOneIff ds hdig.1]
    rw [← sevenZIffDigits f ds hs]
    constructor
    · rintro ⟨-, h⟩; exact h
    · intro h; exact ⟨hmem, h⟩

/-- Witness for C3 at `x.7z.001` (numeric tail 1) and `x.7z` (no tail). -/
theorem C3_sevenzip_representatives_witness :
    "x.7z.001" ∈ Archiver7z.find_archive_files ["x.7z.001"] ∧
      "x.7z" ∈ Archiver7z.find_archive_files ["x.7z"] :=
  ⟨((C3_sevenzip_representatives ["x.7z.001"] "x.7z.001" (by decide)).2
      ['0', '0', '1'] (by decide)).mpr (by decide),
   ((C3_sevenzip_representatives ["x.7z"] "x.7z" (by decide)).1 (by decide)).mpr
      (by decide)⟩

/-- C4 (code bug): in `main`'s password loop the variable `pwd` is
initialised once per directory, not once per archive, so with a password-free
directory path the password found in the first archive's filename is also
attached to the second archive, although neither the directory path nor the
second filename contains a `{{...}}` group. -/
theorem C4_password_carryover :
    passwordSeq "/d" ["a\x7b\x7bp1\x7d\x7d.rar", "b.rar"] = [some "p1", some "p1"] ∧
      findPassword "/d" = none ∧ findPassword "b.rar" = none := by
  decide

/-- C5: with the sibling filesystem `fs` and delete prefix `rm`, the RAR
removal command is `none` exactly when the representative's (case-sensitive)
extension is not `.rar`; otherwise it targets `<basename>.part*.rar` plus
`<basename>.par2` for a modern volume part, the path itself plus
`<basename>.r*` plus `<basename>.par2` when a `.r00` sibling exists, and the
path itself plus `<basename>.par2` otherwise, where `<basename>` is the
source's basename derivation. -/
theorem C5_rar_rm_command (fs : List String) (rm : String) (p : SPath) :
    (pathSuffix p.name ≠ ".rar" → ArchiverRar.build_rm_command fs rm p = none) ∧
    (pathSuffix p.name = ".rar" → ArchiverRar.build_rm_command fs rm p = some (
      if ArchiverRar.is_volume_part p.name then
        rm ++ " \"" ++ (p.dir ++ "/" ++ ArchiverRar.get_basename p.name)
          ++ "\".part*.rar \"" ++ (p.dir ++ "/" ++ ArchiverRar.get_basename p.name)
          ++ ".par2\""
      else if fs.contains (p.dir ++ "/" ++ (ArchiverRar.get_basename p.name ++ ".r00")) then
        rm ++ " \"" ++ p.full ++ "\" \"" ++ (p.dir ++ "/" ++ ArchiverRar.get_basename p.name)
          ++ "\".r* \"" ++ (p.dir ++ "/" ++ ArchiverRar.get_basename p.name) ++ ".par2\""
      else
        rm ++ " \"" ++ p.full ++ "\" \""
          ++ (p.dir ++ "/" ++ (ArchiverRar.get_basename p.name ++ ".par2")) ++ "\"")) := by
  constructor
  · intro hne
    unfold ArchiverRar.build_rm_command
    rw [if_neg hne]
  · intro hs
    unfold ArchiverRar.build_rm_command
    rw [if_pos hs]
    by_cases hvp : ArchiverRar.is_volume_part p.name = true
    · rw [hvp]
      simp only [Bool.not_true, Bool.false_eq_true, if_false, if_true]
      rfl
    · have hvp' : ArchiverRar.is_volume_part p.name = false := by
        cases hb : ArchiverRar.is_volume_part p.name with
        | true => exact absurd hb hvp
        | false => rfl
      have hbn := getBasenameEqStem p.name hs hvp'
      rw [hvp']
      simp only [Bool.not_false, Bool.false_eq_true, if_false, if_true]
      have hcond : (p.withSuffix ".r00").full =
          p.dir ++ "/" ++ (ArchiverRar.get_basename p.name ++ ".r00") := by
        simp [SPath.withSuffix, SPath.full, withSuffixName, hbn]
      rw [hcond]
      by_cases hc :
          fs.contains (p.dir ++ "/" ++ (ArchiverRar.get_basename p.name ++ ".r00")) = true
      · rw [if_pos hc, if_pos hc]
        have h1 : (p.withSuffix "").full = p.dir ++ "/" ++ ArchiverRar.get_basename p.name := by
          simp [SPath.withSuffix, SPath.full, withSuffixName, hbn, strAppendEmpty]
        rw [h1]
      · rw [if_neg hc, if_neg hc]
        have h2 : (p.withSuffix ".par2").full =
            p.dir ++ "/" ++ (ArchiverRar.get_basename p.name ++ ".par2") := by
          simp [SPath.withSuffix, SPath.full, withSuffixName, hbn]
        rw [h2]

/-- Witness for C5: a legacy single `.rar` with an existing `.r00` sibling. -/
theorem C5_rar_rm_command_witness :
    ArchiverRar.build_rm_command ["/d/xyz.r00"] "rm -fv" ⟨"/d", "xyz.rar"⟩ =
      some "rm -fv \"/d/xyz.rar\" \"/d/xyz\".r* \"/d/xyz.par2\"" := by
  have h := (C5_rar_rm_command ["/d/xyz.r00"] "rm -fv" ⟨"/d", "xyz.rar"⟩).2 (by decide)
  rw [h]
  decide

/-- C6 (counterexample): `x.7z.01` is recognised by the 7-Zip classifier as
a representative and its extension `.01` is a purely-numeric multi-volume
suffix, yet the removal-command builder fails on it, because the source
accepts only the literal extensions `.7z` and `.001`. -/
theorem C6_counterexample :
    Archiver7z.is_7zip "x.7z.01" = true ∧
      isNumericVolumeSuffix (pathSuffix "x.7z.01") = true ∧
      Archiver7z.build_rm_command "rm -fv" ⟨"/d", "x.7z.01"⟩ = none := by
  decide

/-- C6 (amended): the 7-Zip removal-command builder succeeds, producing
`<basename>.7z*` plus `<basename>.par2`, exactly when the representative's
extension is the literal `.7z` or the literal `.001`; any other extension —
including other purely-numeric suffixes such as `.01` or `.0001` — fails. -/
theorem C6_sevenzip_rm_command (rm : String) (p : SPath) :
    ((pathSuffix p.name = ".7z" ∨ pathSuffix p.name = ".001") →
      Archiver7z.build_rm_command rm p = some (
        rm ++ " \"" ++ (p.dir ++ "/" ++ Archiver7z.get_basename p.name)
          ++ "\".7z* \"" ++ (p.dir ++ "/" ++ Archiver7z.get_basename p.name)
          ++ ".par2\"")) ∧
    (¬(pathSuffix p.name = ".7z" ∨ pathSuffix p.name = ".001") →
      Archiver7z.build_rm_command rm p = none) := by
  constructor
  · intro h
    unfold Archiver7z.build_rm_command
    rw [if_pos h]
    rfl
  · intro h
    unfold Archiver7z.build_rm_command
    rw [if_neg h]

/-- Witness for C6's amended theorem at the first volume `xyz.7z.001`. -/
theorem C6_sevenzip_rm_command_witness :
    Archiver7z.build_rm_command "rm -fv" ⟨"/d", "xyz.7z.001"⟩ =
      some "rm -fv \"/d/xyz\".7z* \"/d/xyz.par2\"" := by
  have h := (C6_sevenzip_rm_command "rm -fv" ⟨"/d", "xyz.7z.001"⟩).1 (by decide)
  rw [h]
  decide

/-- C7: no filename is claimed by both classifiers: a RAR representative
(which always ends in `r` after lowercasing) is never a 7-Zip
representative (which ends in `z` or `1`). -/
theorem C7_families_disjoint (files : List String) (f : String)
    (h : f ∈ ArchiverRar.find_archive_files files) :
    f ∉ Archiver7z.find_archive_files files := by
  intro h7
  have hends := (memFindRarEndsRar files f h).2
  have h7z : Archiver7z.is_7zip f = true := ((memFind7zIff files f).mp h7).2
  unfold ArchiverRar.endsRarCI at hends
  unfold Archiver7z.is_7zip at h7z
  cases hr : f.data.reverse with
  | nil =>
    rw [hr] at hends
    exact absurd hends (by decide)
  | cons c r2 =>
    rw [hr] at hends h7z
    obtain ⟨c', cs', hcc, hmr⟩ :=
      hasFrontCIConsElim 'r' ['a', 'r', '.'] (c :: r2) (by simpa [rarRev] using hends)
    injection hcc with h1 h2
    rw [← h1] at hmr
    rcases Bool.or_eq_true_iff.mp h7z with hz | hb
    · obtain ⟨c'', cs'', hcc2, hmz⟩ :=
        hasFrontCIConsElim 'z' ['7', '.'] (c :: r2) (by simpa [sevenZipRev] using hz)
      injection hcc2 with h3 h4
      rw [← h3] at hmz
      rcases matchCIElim 'r' c hmr with rfl | ⟨-, hr82⟩
      · rcases matchCIElim 'z' 'r' hmz with he | ⟨-, hz90⟩
        · exact absurd he (by decide)
        · exact absurd hz90 (by decide)
      · rcases matchCIElim 'z' c hmz with rfl | ⟨-, hz90⟩
        · exact absurd hr82 (by decide)
        · have h114 : ('r' : Char).toNat = 114 := by decide
          have h122 : ('z' : Char).toNat = 122 := by decide
          omega
    · have hb' : (decide (c = '1') &&
          hasFrontCI sevenZipDotRev (r2.dropWhile (fun x => x = '0'))) = true := hb
      have hc1 : c = '1' := of_decide_eq_true (Bool.and_eq_true_iff.mp hb').1
      rw [hc1] at hmr
      exact absurd hmr (by decide)

/-- Witness for C7 at a concrete RAR representative. -/
theorem C7_families_disjoint_witness :
    "x.rar" ∉ Archiver7z.find_archive_files ["x.rar"] :=
  C7_families_disjoint ["x.rar"] "x.rar" (by decide)

/-- C8 (code bug): the rendered Windows script contains the `chcp 1252`
directive when every command line is pure ASCII (here the single command
`"dir"`), and omits it when a command line contains a non-ASCII character
(here `"café"`) — the opposite of the spec, because the source computes
`any([str.isascii(cmd) for cmd in commands])` without the intended `not`. -/
theorem C8_chcp_inverted :
    strIsAscii "dir" = true ∧
      "chcp 1252" ∈ scriptLines true "created" ["dir"] ∧
      strIsAscii "café" = false ∧
      (scriptLines true "created" ["café"]).contains "chcp 1252" = false := by
  refine ⟨by decide, ?_, by decide, by decide⟩
  decide

/-- C9: with no collected commands `main` returns exit code 2 and renders no
script body; with at least one command it returns 0 together with the
rendered script. -/
theorem C9_empty_exit_code (isWindows : Bool) (headerText : String)
    (commands : List String) :
    (commands = [] → mainResult isWindows headerText commands = (2, none)) ∧
    (commands ≠ [] →
      mainResult isWindows headerText commands =
        (0, some (scriptLines isWindows headerText commands))) := by
  constructor
  · intro h
    subst h
    rfl
  · intro h
    have hne : commands.isEmpty = false := (isEmptyFalseIff commands).mpr h
    unfold mainResult
    rw [if_neg (by simp [hne])]

/-- Witness for C9 at an empty and a singleton command list. -/
theorem C9_empty_exit_code_witness :
    mainResult false "h" [] = (2, none) ∧
      mainResult false "h" ["cmd"] = (0, some (scriptLines false "h" ["cmd"])) :=
  ⟨(C9_empty_exit_code false "h" []).1 rfl,
   (C9_empty_exit_code false "h" ["cmd"]).2 (by decide)⟩

/-- C10: the classifier accepts `X.RAR` (uppercase) as a representative,
yet the removal-command builder's case-sensitive `assert filepath.suffix ==
".rar"` fails on the corresponding path, so the assertion's failure branch
is reachable from classifier output. -/
theorem C10_uppercase_rar_assert_reachable :
    "X.RAR" ∈ ArchiverRar.find_archive_files ["X.RAR"] ∧
      ArchiverRar.build_rm_command [] "rm -fv" ⟨"/d", "X.RAR"⟩ = none := by
  decide
